import Mathlib

set_option maxHeartbeats 1000000

/-!
Shallow embedding of the arbitrary-precision signed-integer arithmetic engine
in `src/main.rs`: a sign-magnitude representation with base-2^64 limbs stored
least-significant first, supporting normalization, total-order comparison,
addition (with carry/borrow propagation), negation and subtraction.

Machine integers (`u64`, `usize`) are embedded as natural numbers; wrapping
64-bit arithmetic is made explicit with `% 2^64`.  The imperative digit loop
inside `Add::add` is embedded as a fuel-indexed recursion (`addLoop`) so that
divergence of the loop is representable as `none` for every fuel.
-/

/-- The limb base: one digit is a `u64`, i.e. a natural number below `2 ^ 64`. -/
def limbBase : Nat := 2 ^ 64

/-- Rust `u64::carrying_add a b c`: 64-bit addition with carry-in and carry-out,
computed in a wide intermediate domain and split into (low 64 bits, overflow bit). -/
def carrying_add (a b : Nat) (c : Bool) : Nat × Bool :=
  let s := a + b + (if c then 1 else 0)
  (s % limbBase, decide (limbBase ≤ s))

/-- Rust `u64::borrowing_sub a b c`: wrapping 64-bit subtraction with borrow-in
and borrow-out. -/
def borrowing_sub (a b : Nat) (c : Bool) : Nat × Bool :=
  let t := b + (if c then 1 else 0)
  ((a + limbBase - t) % limbBase, decide (a < t))

/-- Rust `Ord` on `u64` / `usize`: three-way numeric comparison. -/
def natCmp (a b : Nat) : Ordering :=
  if a < b then .lt else if b < a then .gt else .eq

/-- Rust `Iterator::cmp`: lexicographic three-way comparison of two sequences;
if one sequence is a proper prefix of the other, the shorter one is `lt`. -/
def cmpList : List Nat → List Nat → Ordering
  | [], [] => .eq
  | [], _ :: _ => .lt
  | _ :: _, [] => .gt
  | x :: xs, y :: ys =>
    match natCmp x y with
    | .eq => cmpList xs ys
    | o => o

/-- The `Number` struct of `src/main.rs`: a sign flag (`true` = non-negative)
and base-2^64 digits, least significant first. -/
structure Number where
  positive : Bool
  digits : List Nat
deriving DecidableEq, Repr

/-- `Number::cmp_abs`: `self.digits.iter().rev().cmp(other.digits.iter().rev())`,
a lexicographic comparison of the digit sequences read most-significant-first. -/
def Number.cmp_abs (a b : Number) : Ordering :=
  cmpList a.digits.reverse b.digits.reverse

/-- `Number::normalize`: canonicalize an empty digit list to positive zero,
strip most-significant zero limbs (keeping at least one limb), and force the
sign of a single-limb zero to positive. -/
def Number.normalize (n : Number) : Number :=
  if n.digits = [] then ⟨true, [0]⟩
  else
    let numLeadingZeroes := (n.digits.reverse.takeWhile (fun d => d == 0)).length
    let digits := n.digits.take (max 1 (n.digits.length - numLeadingZeroes))
    ⟨if digits = [0] then true else n.positive, digits⟩

/-- `Number::new`: construct from a raw sign/digit pair and normalize. -/
def Number.new (positive : Bool) (digits : List Nat) : Number :=
  Number.normalize ⟨positive, digits⟩

/-- `Ord::cmp` for `Number`: sign first, then digit count, then the
magnitude comparison, with the magnitude result flipped for negatives. -/
def Number.cmp (a b : Number) : Ordering :=
  match a.positive, b.positive with
  | true, false => .gt
  | false, true => .lt
  | _, _ =>
    match natCmp a.digits.length b.digits.length with
    | .eq =>
      let c := a.cmp_abs b
      if a.positive then c else c.swap
    | o => if a.positive then o else o.swap

/-- The digit loop of `Add::add`, fuel-indexed.  State: the bigger operand's
digit vector (grown in place with a pushed `0` when the index reaches its
length), the pending carry/borrow, and the loop index `i`.  The loop runs while
`i < smaller.length || carry`; exhausted fuel at a state with pending work
yields `none`, which embeds divergence of the source loop. -/
def addLoop (op : Nat → Nat → Bool → Nat × Bool) (smaller : List Nat) :
    Nat → List Nat → Bool → Nat → Option (List Nat)
  | 0, digits, carry, i => if i < smaller.length ∨ carry then none else some digits
  | fuel + 1, digits, carry, i =>
    if i < smaller.length ∨ carry then
      let digits' := if i = digits.length then digits ++ [0] else digits
      let db := digits'.getD i 0
      let ds := smaller.getD i 0
      let r := op db ds carry
      addLoop op smaller fuel (digits'.set i r.1) r.2 (i + 1)
    else some digits

/-- `Add::add` for `Number`: pick the operand `cmp_abs` ranks strictly greater
as `bigger` (ties go to the right operand), select carry-add or borrow-sub
from the two signs, run the digit loop, and normalize under `bigger`'s sign. -/
def Number.add (a b : Number) (fuel : Nat) : Option Number :=
  let p := if a.cmp_abs b = .gt then (a, b) else (b, a)
  let bigger := p.1
  let smaller := p.2
  let op :=
    match bigger.positive, smaller.positive with
    | true, true => carrying_add
    | false, false => carrying_add
    | _, _ => borrowing_sub
  (addLoop op smaller.digits fuel bigger.digits false 0).map
    (fun digits => Number.normalize ⟨bigger.positive, digits⟩)

/-- `Neg::neg` for `Number`: flip the sign and re-normalize. -/
def Number.neg (a : Number) : Number :=
  Number.normalize ⟨!a.positive, a.digits⟩

/-- `Sub::sub` for `Number`: `self + -rhs`. -/
def Number.sub (a b : Number) (fuel : Nat) : Option Number :=
  a.add b.neg fuel

/-- Value denoted by a little-endian digit list. -/
def listVal : List Nat → Nat
  | [] => 0
  | d :: ds => d + limbBase * listVal ds

/-- Value denoted by a big-endian (most-significant-first) digit list. -/
def valBE : List Nat → Nat
  | [] => 0
  | d :: ds => d * limbBase ^ ds.length + valBE ds

/-- The integer a `Number` denotes: sign times the base-2^64 digit value. -/
def Number.toInt (a : Number) : Int :=
  if a.positive then (listVal a.digits : Int) else -(listVal a.digits : Int)

/-- Well-formedness: every digit fits in a `u64`. -/
def Number.Wf (a : Number) : Prop := ∀ d ∈ a.digits, d < limbBase

/-- The spec's representation invariants 1-3: digits non-empty, no
most-significant zero limb except for the single-limb zero, and zero is
never negative. -/
def Number.Inv (a : Number) : Prop :=
  a.digits ≠ [] ∧ (a.digits.getLast? = some 0 → a.digits = [0]) ∧
    (a.digits = [0] → a.positive = true)

/-- A normalized `Number`: the representation invariants plus digit bounds. -/
def Number.Normalized (a : Number) : Prop := a.Inv ∧ a.Wf

instance (a : Number) : Decidable a.Wf := by
  unfold Number.Wf; infer_instance

instance (a : Number) : Decidable a.Inv := by
  unfold Number.Inv; infer_instance

instance (a : Number) : Decidable a.Normalized := by
  unfold Number.Normalized; infer_instance

/-- Proof-side view of the most-significant-zero stripping in `normalize`. -/
def stripLZ (l : List Nat) : List Nat :=
  (l.reverse.dropWhile (fun d => d == 0)).reverse

/-- Three-way comparison of integers by mathematical value, the reference
against which `Number.cmp` is checked. -/
def intCmp (x y : Int) : Ordering :=
  if x < y then .lt else if y < x then .gt else .eq

/-- List-structural view of the digit loop of `Add::add`: the loop state at
index `i` depends only on the unprocessed suffixes of the two digit lists and
the pending carry, each step consuming one limb of each (missing limbs read as
`0`) and emitting one output limb. -/
def loopS (op : Nat → Nat → Bool → Nat × Bool) :
    Nat → List Nat → List Nat → Bool → Option (List Nat)
  | 0, big, small, carry => if small ≠ [] ∨ carry then none else some big
  | fuel + 1, big, small, carry =>
    if small ≠ [] ∨ carry then
      let r := op (big.headD 0) (small.headD 0) carry
      (loopS op fuel big.tail small.tail r.2).map (fun out => r.1 :: out)
    else some big

-- sanity checks mirroring the Rust test suite
example : Number.add (Number.new true [5]) (Number.new true [7]) 10 =
    some (Number.new true [12]) := by decide
example : Number.add (Number.new true [2 ^ 64 - 1]) (Number.new true [2 ^ 64 - 1]) 10 =
    some (Number.new true [2 ^ 64 - 2, 1]) := by decide
example : Number.add (Number.new true [2 ^ 64 - 1]) (Number.new false [2 ^ 64 - 1]) 10 =
    some (Number.new true [0]) := by decide
example : Number.neg (Number.new true [0]) = Number.new true [0] := by decide
example : Number.add (Number.new false [100]) (Number.new true [40]) 10 =
    some (Number.new false [60]) := by decide
example : Number.sub (Number.new true [0, 1]) (Number.new true [1]) 10 =
    some (Number.new true [2 ^ 64 - 1]) := by decide
example : Number.sub (Number.new true [1]) (Number.new true [0, 1]) 10 =
    some (Number.new false [2 ^ 64 - 1]) := by decide
example : Number.sub (Number.new false [50]) (Number.new true [20]) 10 =
    some (Number.new false [70]) := by decide
example : Number.sub (Number.new true [20]) (Number.new false [50]) 10 =
    some (Number.new true [70]) := by decide
example : Number.sub (Number.new false [30]) (Number.new false [10]) 10 =
    some (Number.new false [20]) := by decide
example : Number.sub (Number.new true [0, 1]) (Number.new true [1, 1]) 10 =
    some (Number.new false [1]) := by decide
example : Number.cmp (Number.new true [1]) (Number.new true [0]) = .gt := by decide
example : Number.cmp (Number.new false [1]) (Number.new true [0]) = .lt := by decide
example : Number.cmp (Number.new false [1]) (Number.new true [1]) = .lt := by decide

-- the cmp_abs anomaly on unequal lengths: 5 is ranked above 2^64
example : Number.cmp_abs ⟨true, [5]⟩ ⟨true, [0, 1]⟩ = .gt := by decide
-- the divergence it causes: with fuel 6 the borrow chain is still pending
example : Number.add ⟨true, [5]⟩ ⟨false, [0, 1]⟩ 6 = none := by decide

/-! ### Basic facts about the denotation functions -/

lemma limbBase_pos : 0 < limbBase := by unfold limbBase; positivity

lemma valBE_append_singleton (xs : List Nat) (d : Nat) :
    valBE (xs ++ [d]) = valBE xs * limbBase + d := by
  induction xs with
  | nil => simp [valBE]
  | cons x xs ih =>
    show x * limbBase ^ (xs ++ [d]).length + valBE (xs ++ [d]) = _
    rw [ih]
    simp only [List.length_append, List.length_cons, List.length_nil, valBE]
    ring

lemma valBE_reverse (l : List Nat) : valBE l.reverse = listVal l := by
  induction l with
  | nil => rfl
  | cons d ds ih =>
    simp only [List.reverse_cons, valBE_append_singleton, ih, listVal]
    ring

lemma valBE_lt (l : List Nat) (h : ∀ d ∈ l, d < limbBase) :
    valBE l < limbBase ^ l.length := by
  induction l with
  | nil => simp [valBE, limbBase_pos]
  | cons d ds ih =>
    have hd : d < limbBase := h d (by simp)
    have hds : valBE ds < limbBase ^ ds.length := ih fun x hx => h x (by simp [hx])
    have h1 : valBE (d :: ds) < (d + 1) * limbBase ^ ds.length := by
      show d * limbBase ^ ds.length + valBE ds < _
      have : (d + 1) * limbBase ^ ds.length = d * limbBase ^ ds.length + limbBase ^ ds.length := by
        ring
      omega
    have h2 : (d + 1) * limbBase ^ ds.length ≤ limbBase * limbBase ^ ds.length :=
      Nat.mul_le_mul_right _ (by omega)
    calc valBE (d :: ds) < (d + 1) * limbBase ^ ds.length := h1
      _ ≤ limbBase * limbBase ^ ds.length := h2
      _ = limbBase ^ (d :: ds).length := by simp [pow_succ]; ring

lemma le_valBE_cons (d : Nat) (ds : List Nat) :
    d * limbBase ^ ds.length ≤ valBE (d :: ds) := by
  show d * limbBase ^ ds.length ≤ d * limbBase ^ ds.length + valBE ds
  omega

lemma valBE_dropWhile_zero (l : List Nat) :
    valBE (l.dropWhile (fun d => d == 0)) = valBE l := by
  induction l with
  | nil => rfl
  | cons d ds ih =>
    by_cases hd : d = 0
    · subst hd
      simpa [List.dropWhile_cons, valBE] using ih
    · simp [List.dropWhile_cons, hd]

/-! ### Characterization of `normalize` via `stripLZ` -/

lemma listVal_stripLZ (l : List Nat) : listVal (stripLZ l) = listVal l := by
  rw [← valBE_reverse, ← valBE_reverse l]
  unfold stripLZ
  rw [List.reverse_reverse]
  exact valBE_dropWhile_zero _

lemma dropWhile_head_false {p : Nat → Bool} (l : List Nat) (d : Nat) (ds : List Nat)
    (h : l.dropWhile p = d :: ds) : p d = false := by
  induction l with
  | nil => simp [List.dropWhile] at h
  | cons x xs ih =>
    rw [List.dropWhile_cons] at h
    by_cases hx : p x = true
    · rw [if_pos hx] at h; exact ih h
    · rw [if_neg hx] at h
      injection h with h1 _
      subst h1
      exact Bool.eq_false_iff.mpr hx

lemma stripLZ_last_ne_zero (l : List Nat) (h : stripLZ l ≠ []) :
    (stripLZ l).getLast? ≠ some 0 := by
  unfold stripLZ at h ⊢
  cases hD : l.reverse.dropWhile (fun d => d == 0) with
  | nil => rw [hD] at h; simp at h
  | cons d ds =>
    have hd : (d == 0) = false := dropWhile_head_false l.reverse d ds hD
    simp only [List.reverse_cons, List.getLast?_concat]
    intro hc
    have hd0 : d = 0 := by injection hc
    simp [hd0] at hd

lemma normalize_eq_strip (p : Bool) (l : List Nat) :
    Number.normalize ⟨p, l⟩ =
      if stripLZ l = [] then ⟨true, [0]⟩ else ⟨p, stripLZ l⟩ := by
  by_cases hl : l = []
  · subst hl; simp [Number.normalize, stripLZ]
  · unfold Number.normalize
    simp only [hl, if_false]
    have hsplit := List.takeWhile_append_dropWhile (p := fun d => d == 0) (l := l.reverse)
    have hlen : (l.reverse.takeWhile (fun d => d == 0)).length +
        (l.reverse.dropWhile (fun d => d == 0)).length = l.length := by
      have h1 := congrArg List.length hsplit
      rw [List.length_append, List.length_reverse] at h1
      exact h1
    by_cases hDnil : l.reverse.dropWhile (fun d => d == 0) = []
    · have hstrip : stripLZ l = [] := by simp [stripLZ, hDnil]
      rw [if_pos hstrip]
      have hall : ∀ x ∈ l, x = 0 := by
        have h2 := List.dropWhile_eq_nil_iff.mp hDnil
        intro x hx
        simpa using h2 x (List.mem_reverse.mpr hx)
      have hz : (l.reverse.takeWhile (fun d => d == 0)).length = l.length := by
        rw [hDnil] at hlen
        simpa using hlen
      rw [hz]
      simp only [Nat.sub_self, Nat.max_zero]
      obtain ⟨d, ds, rfl⟩ := List.exists_cons_of_ne_nil hl
      have hd0 : d = 0 := hall d (by simp)
      subst hd0
      simp
    · have hsne : stripLZ l ≠ [] := by simpa [stripLZ] using hDnil
      rw [if_neg hsne]
      have hldecomp : l = (l.reverse.dropWhile (fun d => d == 0)).reverse ++
          (l.reverse.takeWhile (fun d => d == 0)).reverse := by
        have h2 := congrArg List.reverse hsplit
        rw [List.reverse_append, List.reverse_reverse] at h2
        exact h2.symm
      have hDlen : 1 ≤ (l.reverse.dropWhile (fun d => d == 0)).length :=
        Nat.one_le_iff_ne_zero.mpr (fun hc => hDnil (List.length_eq_zero.mp hc))
      have hsub : l.length - (l.reverse.takeWhile (fun d => d == 0)).length =
          (l.reverse.dropWhile (fun d => d == 0)).length := by omega
      rw [hsub, Nat.max_eq_right hDlen]
      have htake : l.take ((l.reverse.dropWhile (fun d => d == 0)).length) = stripLZ l := by
        conv_lhs => rw [hldecomp]
        rw [List.take_left' (by simp [stripLZ])]
        rfl
      rw [htake]
      have hne : stripLZ l ≠ [0] := by
        intro hc
        have h1 : stripLZ l ≠ [] := by simp [hc]
        have h3 := stripLZ_last_ne_zero l h1
        rw [hc] at h3
        simp at h3
      rw [if_neg hne]

/-! ### Consequences of the normalize characterization -/

lemma normalize_Inv (p : Bool) (l : List Nat) : (Number.normalize ⟨p, l⟩).Inv := by
  rw [normalize_eq_strip]
  by_cases h : stripLZ l = []
  · rw [if_pos h]; decide
  · rw [if_neg h]
    refine ⟨h, ?_, ?_⟩
    · intro hlast
      exact absurd hlast (stripLZ_last_ne_zero l h)
    · intro hc
      have hc' : stripLZ l = [0] := hc
      have h3 := stripLZ_last_ne_zero l h
      rw [hc'] at h3
      simp at h3

lemma normalize_Inv' (n : Number) : n.normalize.Inv := by
  obtain ⟨p, l⟩ := n
  exact normalize_Inv p l

lemma normalize_of_Inv (a : Number) (h : a.Inv) : a.normalize = a := by
  obtain ⟨p, l⟩ := a
  obtain ⟨hne, hlast, hzero⟩ := h
  rw [normalize_eq_strip]
  by_cases h0 : l = [0]
  · subst h0
    have hp : p = true := hzero rfl
    subst hp
    simp [stripLZ, List.dropWhile]
  · have hlne : l ≠ [] := hne
    obtain ⟨d, ds, hrev⟩ : ∃ d ds, l.reverse = d :: ds :=
      List.exists_cons_of_ne_nil (by simpa using hlne)
    have hdl : l.getLast? = some d := by
      rw [List.getLast?_eq_head?_reverse, hrev]
      rfl
    have hd : d ≠ 0 := fun hc => h0 (hlast (by rw [hdl, hc]))
    have hstrip : stripLZ l = l := by
      unfold stripLZ
      rw [hrev, List.dropWhile_cons, if_neg (by simp [hd]), ← hrev, List.reverse_reverse]
    rw [hstrip, if_neg hlne]

lemma listVal_eq_zero_of_strip_nil (l : List Nat) (h : stripLZ l = []) : listVal l = 0 := by
  rw [← listVal_stripLZ l, h]
  rfl

lemma toInt_normalize (p : Bool) (l : List Nat) :
    (Number.normalize ⟨p, l⟩).toInt = Number.toInt ⟨p, l⟩ := by
  rw [normalize_eq_strip]
  by_cases h : stripLZ l = []
  · rw [if_pos h]
    have hval : listVal l = 0 := listVal_eq_zero_of_strip_nil l h
    simp [Number.toInt, hval, listVal]
  · rw [if_neg h]
    simp [Number.toInt, listVal_stripLZ]

lemma mem_stripLZ_mem (l : List Nat) (d : Nat) (hd : d ∈ stripLZ l) : d ∈ l := by
  have h1 : d ∈ l.reverse.dropWhile (fun x => x == 0) := by
    simpa [stripLZ] using hd
  have h2 := (List.dropWhile_sublist (fun x => x == 0)).subset h1
  exact List.mem_reverse.mp h2

lemma normalize_Wf (p : Bool) (l : List Nat) (h : ∀ d ∈ l, d < limbBase) :
    (Number.normalize ⟨p, l⟩).Wf := by
  rw [normalize_eq_strip]
  by_cases h0 : stripLZ l = []
  · rw [if_pos h0]
    intro d hd
    simp only [List.mem_singleton] at hd
    subst hd
    exact limbBase_pos
  · rw [if_neg h0]
    intro d hd
    exact h d (mem_stripLZ_mem l d hd)

/-! ### Three-way comparison lemmas -/

lemma natCmp_lt_iff (a b : Nat) : natCmp a b = .lt ↔ a < b := by
  unfold natCmp
  split_ifs with h1 h2
  · simpa using h1
  · simp
    omega
  · simp
    omega

lemma natCmp_gt_iff (a b : Nat) : natCmp a b = .gt ↔ b < a := by
  unfold natCmp
  split_ifs with h1 h2
  · simp
    omega
  · simpa using h2
  · simp
    omega

lemma natCmp_eq_iff (a b : Nat) : natCmp a b = .eq ↔ a = b := by
  unfold natCmp
  split_ifs with h1 h2
  · simp
    omega
  · simp
    omega
  · simp
    omega

lemma natCmp_swap (a b : Nat) : (natCmp a b).swap = natCmp b a := by
  unfold natCmp
  rcases Nat.lt_trichotomy a b with h | h | h
  · simp [h, Nat.lt_asymm h, Ordering.swap]
  · subst h
    simp [Nat.lt_irrefl, Ordering.swap]
  · simp [h, Nat.lt_asymm h, Ordering.swap]

lemma natCmp_add_left (c m n : Nat) : natCmp (c + m) (c + n) = natCmp m n := by
  unfold natCmp
  split_ifs <;> first | rfl | omega

lemma cmpList_eq_iff (x : List Nat) : ∀ y : List Nat, cmpList x y = .eq ↔ x = y := by
  induction x with
  | nil => intro y; cases y <;> simp [cmpList]
  | cons a as' ih =>
    intro y
    cases y with
    | nil => simp [cmpList]
    | cons b bs' =>
      simp only [cmpList]
      cases h : natCmp a b with
      | lt =>
        have hab : a < b := (natCmp_lt_iff a b).mp h
        simp only [List.cons.injEq]
        constructor
        · intro hc
          exact absurd hc (by simp)
        · intro hc
          omega
      | eq =>
        have hab : a = b := (natCmp_eq_iff a b).mp h
        subst hab
        simp only [List.cons.injEq, true_and]
        exact ih bs'
      | gt =>
        have hab : b < a := (natCmp_gt_iff a b).mp h
        simp only [List.cons.injEq]
        constructor
        · intro hc
          exact absurd hc (by simp)
        · intro hc
          omega

lemma cmpList_swap (x : List Nat) : ∀ y : List Nat, (cmpList x y).swap = cmpList y x := by
  induction x with
  | nil => intro y; cases y <;> simp [cmpList, Ordering.swap]
  | cons a as' ih =>
    intro y
    cases y with
    | nil => simp [cmpList, Ordering.swap]
    | cons b bs' =>
      simp only [cmpList]
      cases h : natCmp a b with
      | lt =>
        rw [show natCmp b a = .gt from by rw [← natCmp_swap, h]; rfl]
        rfl
      | eq =>
        rw [show natCmp b a = .eq from by rw [← natCmp_swap, h]; rfl]
        exact ih bs'
      | gt =>
        rw [show natCmp b a = .lt from by rw [← natCmp_swap, h]; rfl]
        rfl

lemma cmpList_eq_natCmp_valBE (x : List Nat) : ∀ y : List Nat, x.length = y.length →
    (∀ d ∈ x, d < limbBase) → (∀ d ∈ y, d < limbBase) →
    cmpList x y = natCmp (valBE x) (valBE y) := by
  induction x with
  | nil =>
    intro y hlen _ _
    have : y = [] := List.length_eq_zero.mp hlen.symm
    subst this
    simp [cmpList, natCmp, valBE]
  | cons a as' ih =>
    intro y hlen hx hy
    cases y with
    | nil => simp at hlen
    | cons b bs' =>
      have hlen' : as'.length = bs'.length := by simpa using hlen
      have hxa : a < limbBase := hx a (by simp)
      have hyb : b < limbBase := hy b (by simp)
      have hxs : ∀ d ∈ as', d < limbBase := fun d hd => hx d (by simp [hd])
      have hys : ∀ d ∈ bs', d < limbBase := fun d hd => hy d (by simp [hd])
      simp only [cmpList]
      cases h : natCmp a b with
      | lt =>
        have hab : a < b := (natCmp_lt_iff a b).mp h
        have hv : valBE (a :: as') < valBE (b :: bs') := by
          have h1 : valBE (a :: as') < (a + 1) * limbBase ^ as'.length := by
            have h2 : valBE as' < limbBase ^ as'.length := valBE_lt as' hxs
            show a * limbBase ^ as'.length + valBE as' < _
            have h3 : (a + 1) * limbBase ^ as'.length =
                a * limbBase ^ as'.length + limbBase ^ as'.length := by ring
            omega
          have h4 : (a + 1) * limbBase ^ as'.length ≤ b * limbBase ^ bs'.length := by
            rw [← hlen']
            exact Nat.mul_le_mul_right _ (by omega)
          have h5 : b * limbBase ^ bs'.length ≤ valBE (b :: bs') := le_valBE_cons b bs'
          omega
        exact ((natCmp_lt_iff _ _).mpr hv).symm
      | eq =>
        have hab : a = b := (natCmp_eq_iff a b).mp h
        subst hab
        have hihe := ih bs' hlen' hxs hys
        rw [hihe]
        show _ = natCmp (a * limbBase ^ as'.length + valBE as')
          (a * limbBase ^ bs'.length + valBE bs')
        rw [← hlen', natCmp_add_left]
      | gt =>
        have hab : b < a := (natCmp_gt_iff a b).mp h
        have hv : valBE (b :: bs') < valBE (a :: as') := by
          have h1 : valBE (b :: bs') < (b + 1) * limbBase ^ bs'.length := by
            have h2 : valBE bs' < limbBase ^ bs'.length := valBE_lt bs' hys
            show b * limbBase ^ bs'.length + valBE bs' < _
            have h3 : (b + 1) * limbBase ^ bs'.length =
                b * limbBase ^ bs'.length + limbBase ^ bs'.length := by ring
            omega
          have h4 : (b + 1) * limbBase ^ bs'.length ≤ a * limbBase ^ as'.length := by
            rw [hlen']
            exact Nat.mul_le_mul_right _ (by omega)
          have h5 : a * limbBase ^ as'.length ≤ valBE (a :: as') := le_valBE_cons a as'
          omega
        exact ((natCmp_gt_iff _ _).mpr hv).symm

/-! ### Magnitude bounds for normalized digit lists -/

lemma listVal_pos_of_last_ne (l : List Nat) (hne : l ≠ []) (hlast : l.getLast? ≠ some 0) :
    0 < listVal l := by
  obtain ⟨d, ds, hrev⟩ : ∃ d ds, l.reverse = d :: ds :=
    List.exists_cons_of_ne_nil (by simpa using hne)
  have hdl : l.getLast? = some d := by
    rw [List.getLast?_eq_head?_reverse, hrev]
    rfl
  have hd : d ≠ 0 := fun hc => hlast (by rw [hdl, hc])
  rw [← valBE_reverse, hrev]
  have h1 : limbBase ^ ds.length ≤ d * limbBase ^ ds.length :=
    Nat.le_mul_of_pos_left _ (by omega)
  have h2 := le_valBE_cons d ds
  have h3 : 0 < limbBase ^ ds.length := Nat.pos_pow_of_pos _ limbBase_pos
  omega

lemma listVal_lt_of_length_lt (x y : List Nat) (hx : ∀ d ∈ x, d < limbBase)
    (hyne : y ≠ []) (hylast : y.getLast? ≠ some 0) (hlen : x.length < y.length) :
    listVal x < listVal y := by
  obtain ⟨d, ds, hrev⟩ : ∃ d ds, y.reverse = d :: ds :=
    List.exists_cons_of_ne_nil (by simpa using hyne)
  have hdl : y.getLast? = some d := by
    rw [List.getLast?_eq_head?_reverse, hrev]
    rfl
  have hd : d ≠ 0 := fun hc => hylast (by rw [hdl, hc])
  have hlx : listVal x < limbBase ^ x.length := by
    rw [← valBE_reverse]
    have := valBE_lt x.reverse (fun e he => hx e (List.mem_reverse.mp he))
    simpa using this
  have hdsy : ds.length = y.length - 1 := by
    have := congrArg List.length hrev
    simp at this
    omega
  have hly : limbBase ^ (y.length - 1) ≤ listVal y := by
    rw [← valBE_reverse, hrev]
    calc limbBase ^ (y.length - 1) = limbBase ^ ds.length := by rw [hdsy]
      _ ≤ d * limbBase ^ ds.length := Nat.le_mul_of_pos_left _ (by omega)
      _ ≤ valBE (d :: ds) := le_valBE_cons d ds
  have hpow : limbBase ^ x.length ≤ limbBase ^ (y.length - 1) :=
    Nat.pow_le_pow_right limbBase_pos (by omega)
  omega

/-! ### Correctness of the comparator -/

lemma intCmp_cast (m n : Nat) : intCmp (m : Int) (n : Int) = natCmp m n := by
  unfold intCmp natCmp
  split_ifs <;> first | rfl | omega

lemma intCmp_neg (x y : Int) : intCmp (-x) (-y) = intCmp y x := by
  unfold intCmp
  split_ifs <;> first | rfl | omega

lemma intCmp_lt_iff (x y : Int) : intCmp x y = .lt ↔ x < y := by
  unfold intCmp
  split_ifs <;> simp <;> omega

lemma intCmp_gt_iff (x y : Int) : intCmp x y = .gt ↔ y < x := by
  unfold intCmp
  split_ifs <;> simp <;> omega

lemma intCmp_eq_iff (x y : Int) : intCmp x y = .eq ↔ x = y := by
  unfold intCmp
  split_ifs <;> simp <;> omega

lemma cmp_abs_eq_natCmp (la lb : List Nat) (hll : la.length = lb.length)
    (hwa : ∀ d ∈ la, d < limbBase) (hwb : ∀ d ∈ lb, d < limbBase) :
    cmpList la.reverse lb.reverse = natCmp (listVal la) (listVal lb) := by
  rw [cmpList_eq_natCmp_valBE la.reverse lb.reverse (by simpa using hll)
    (fun d hd => hwa d (List.mem_reverse.mp hd))
    (fun d hd => hwb d (List.mem_reverse.mp hd))]
  rw [valBE_reverse, valBE_reverse]


lemma cmp_eq_intCmp (a b : Number) (ha : a.Normalized) (hb : b.Normalized) :
    a.cmp b = intCmp a.toInt b.toInt := by
  rcases a with ⟨pa, la⟩
  rcases b with ⟨pb, lb⟩
  obtain ⟨⟨hane, halast, hazero⟩, haw⟩ := ha
  obtain ⟨⟨hbne, hblast, hbzero⟩, hbw⟩ := hb
  have hane' : la ≠ [] := hane
  have hbne' : lb ≠ [] := hbne
  have halast' : la.getLast? = some 0 → la = [0] := halast
  have hblast' : lb.getLast? = some 0 → lb = [0] := hblast
  have haw' : ∀ d ∈ la, d < limbBase := haw
  have hbw' : ∀ d ∈ lb, d < limbBase := hbw
  have halen : 0 < la.length := List.length_pos.mpr hane'
  have hblen : 0 < lb.length := List.length_pos.mpr hbne'
  have hlen1 : ([0] : List Nat).length = 1 := rfl
  cases pa <;> cases pb <;>
    simp only [Number.cmp, Number.toInt, Number.cmp_abs, if_true, if_false,
      Bool.false_eq_true, ite_true, ite_false]
  case false.true =>
    have hla0 : la ≠ [0] := fun hc => by simpa using hazero hc
    have hlast2 : la.getLast? ≠ some 0 := fun hc => hla0 (halast' hc)
    have hpos := listVal_pos_of_last_ne la hane' hlast2
    exact ((intCmp_lt_iff _ _).mpr (by omega)).symm
  case true.false =>
    have hlb0 : lb ≠ [0] := fun hc => by simpa using hbzero hc
    have hlast2 : lb.getLast? ≠ some 0 := fun hc => hlb0 (hblast' hc)
    have hpos := listVal_pos_of_last_ne lb hbne' hlast2
    exact ((intCmp_gt_iff _ _).mpr (by omega)).symm
  case true.true =>
    cases hlen : natCmp la.length lb.length with
    | lt =>
      have hll : la.length < lb.length := (natCmp_lt_iff _ _).mp hlen
      have hlb0 : lb ≠ [0] := by
        intro hc
        rw [hc] at hll
        omega
      have hlast2 : lb.getLast? ≠ some 0 := fun hc => hlb0 (hblast' hc)
      have hv := listVal_lt_of_length_lt la lb haw' hbne' hlast2 hll
      exact ((intCmp_lt_iff _ _).mpr (by omega)).symm
    | eq =>
      have hll : la.length = lb.length := (natCmp_eq_iff _ _).mp hlen
      have hgoal : cmpList la.reverse lb.reverse =
          intCmp ((listVal la : Int)) ((listVal lb : Int)) := by
        rw [cmp_abs_eq_natCmp la lb hll haw' hbw', intCmp_cast]
      exact hgoal
    | gt =>
      have hll : lb.length < la.length := (natCmp_gt_iff _ _).mp hlen
      have hla0 : la ≠ [0] := by
        intro hc
        rw [hc] at hll
        omega
      have hlast2 : la.getLast? ≠ some 0 := fun hc => hla0 (halast' hc)
      have hv := listVal_lt_of_length_lt lb la hbw' hane' hlast2 hll
      exact ((intCmp_gt_iff _ _).mpr (by omega)).symm
  case false.false =>
    cases hlen : natCmp la.length lb.length with
    | lt =>
      have hll : la.length < lb.length := (natCmp_lt_iff _ _).mp hlen
      have hlb0 : lb ≠ [0] := by
        intro hc
        rw [hc] at hll
        omega
      have hlast2 : lb.getLast? ≠ some 0 := fun hc => hlb0 (hblast' hc)
      have hv := listVal_lt_of_length_lt la lb haw' hbne' hlast2 hll
      exact ((intCmp_gt_iff _ _).mpr (by omega)).symm
    | eq =>
      have hll : la.length = lb.length := (natCmp_eq_iff _ _).mp hlen
      have hgoal : (cmpList la.reverse lb.reverse).swap =
          intCmp (-(listVal la : Int)) (-(listVal lb : Int)) := by
        rw [cmp_abs_eq_natCmp la lb hll haw' hbw', natCmp_swap, intCmp_neg, intCmp_cast]
      exact hgoal
    | gt =>
      have hll : lb.length < la.length := (natCmp_gt_iff _ _).mp hlen
      have hla0 : la ≠ [0] := by
        intro hc
        rw [hc] at hll
        omega
      have hlast2 : la.getLast? ≠ some 0 := fun hc => hla0 (halast' hc)
      have hv := listVal_lt_of_length_lt lb la hbw' hane' hlast2 hll
      exact ((intCmp_lt_iff _ _).mpr (by omega)).symm

lemma cmp_eq_of_eq (a b : Number) (h : a.cmp b = .eq) : a = b := by
  rcases a with ⟨pa, la⟩
  rcases b with ⟨pb, lb⟩
  cases pa <;> cases pb <;> simp only [Number.cmp, Number.cmp_abs] at h
  case false.true => exact absurd h (by decide)
  case true.false => exact absurd h (by decide)
  case true.true =>
    cases hlen : natCmp la.length lb.length with
    | lt =>
      rw [hlen] at h
      exact nomatch (show Ordering.lt = Ordering.eq from h)
    | eq =>
      rw [hlen] at h
      have h' : cmpList la.reverse lb.reverse = .eq := h
      have hd : la = lb := List.reverse_inj.mp ((cmpList_eq_iff _ _).mp h')
      rw [hd]
    | gt =>
      rw [hlen] at h
      exact nomatch (show Ordering.gt = Ordering.eq from h)
  case false.false =>
    cases hlen : natCmp la.length lb.length with
    | lt =>
      rw [hlen] at h
      exact nomatch (show Ordering.gt = Ordering.eq from h)
    | eq =>
      rw [hlen] at h
      have h' : (cmpList la.reverse lb.reverse).swap = .eq := h
      have h2 : cmpList la.reverse lb.reverse = .eq := by
        cases hc : cmpList la.reverse lb.reverse <;> rw [hc] at h' <;>
          first | rfl | exact nomatch h'
      have hd : la = lb := List.reverse_inj.mp ((cmpList_eq_iff _ _).mp h2)
      rw [hd]
    | gt =>
      rw [hlen] at h
      exact nomatch (show Ordering.lt = Ordering.eq from h)

/-! ### Structural view of the digit loop -/

lemma addLoop_eq_loopS (op : Nat → Nat → Bool → Nat × Bool) (fuel : Nat) :
    ∀ (digits small : List Nat) (carry : Bool) (i : Nat), i ≤ digits.length →
    addLoop op small fuel digits carry i =
      (loopS op fuel (digits.drop i) (small.drop i) carry).map
        (fun out => digits.take i ++ out) := by
  induction fuel with
  | zero =>
    intro digits small carry i hi
    simp only [addLoop, loopS]
    have hcond : (small.drop i ≠ [] ∨ carry = true) ↔ (i < small.length ∨ carry = true) := by
      rw [ne_eq, List.drop_eq_nil_iff]
      constructor
      · rintro (h | h)
        · exact Or.inl (by omega)
        · exact Or.inr h
      · rintro (h | h)
        · exact Or.inl (by omega)
        · exact Or.inr h
    by_cases hc : i < small.length ∨ carry = true
    · rw [if_pos hc, if_pos (hcond.mpr hc)]
      rfl
    · rw [if_neg hc, if_neg (fun h => hc (hcond.mp h))]
      simp
  | succ fuel ih =>
    intro digits small carry i hi
    simp only [addLoop, loopS]
    have hcond : (small.drop i ≠ [] ∨ carry = true) ↔ (i < small.length ∨ carry = true) := by
      rw [ne_eq, List.drop_eq_nil_iff]
      constructor
      · rintro (h | h)
        · exact Or.inl (by omega)
        · exact Or.inr h
      · rintro (h | h)
        · exact Or.inl (by omega)
        · exact Or.inr h
    by_cases hc : i < small.length ∨ carry = true
    · rw [if_pos hc, if_pos (hcond.mpr hc)]
      have hds : small.getD i 0 = (small.drop i).headD 0 := by
        rw [List.getD_eq_getElem?_getD, List.headD_eq_head?_getD, List.head?_drop]
      by_cases hil : i = digits.length
      · -- the loop pushes a fresh 0 limb
        rw [if_pos hil]
        have hdb : (digits ++ [0]).getD i 0 = (digits.drop i).headD 0 := by
          rw [List.getD_eq_getElem?_getD, List.getElem?_append_right (by omega),
            hil, List.headD_eq_head?_getD, List.head?_drop]
          simp
        rw [hdb, hds]
        have hset : (digits ++ [0]).set i
            (op ((digits.drop i).headD 0) ((small.drop i).headD 0) carry).1 =
            digits ++ [(op ((digits.drop i).headD 0) ((small.drop i).headD 0) carry).1] := by
          rw [List.set_append_right _ _ (by omega), hil]
          simp
        rw [hset]
        rw [ih _ small _ (i + 1) (by simp; omega)]
        have hdrop : (digits ++ [(op ((digits.drop i).headD 0) ((small.drop i).headD 0) carry).1]).drop
            (i + 1) = (digits.drop i).tail := by
          rw [List.tail_drop]
          rw [List.drop_of_length_le (by simp; omega), List.drop_of_length_le (by omega)]
        have htake : (digits ++ [(op ((digits.drop i).headD 0) ((small.drop i).headD 0) carry).1]).take
            (i + 1) = digits.take i ++ [(op ((digits.drop i).headD 0) ((small.drop i).headD 0) carry).1] := by
          rw [List.take_of_length_le (by simp; omega), hil, List.take_length]
        rw [hdrop, htake, List.tail_drop, List.tail_drop]
        simp only [Option.map_map]
        congr 1
        funext out
        simp
      · have hil2 : i < digits.length := by omega
        rw [if_neg hil]
        have hdb : digits.getD i 0 = (digits.drop i).headD 0 := by
          rw [List.getD_eq_getElem?_getD, List.headD_eq_head?_getD, List.head?_drop]
        rw [hdb, hds]
        rw [ih _ small _ (i + 1) (by simp; omega)]
        have hseteq : digits.set i
            (op ((digits.drop i).headD 0) ((small.drop i).headD 0) carry).1 =
            digits.take i ++
              (op ((digits.drop i).headD 0) ((small.drop i).headD 0) carry).1 ::
                digits.drop (i + 1) := by
          rw [List.set_eq_take_append_cons_drop, if_pos hil2]
        have hlentake : (digits.take i).length = i := by
          simp
          omega
        have hdrop : (digits.set i
            (op ((digits.drop i).headD 0) ((small.drop i).headD 0) carry).1).drop (i + 1) =
            (digits.drop i).tail := by
          rw [hseteq, List.tail_drop]
          have h1 : i + 1 = (digits.take i).length + 1 := by omega
          rw [h1, List.drop_append]
          simp
        have htake : (digits.set i
            (op ((digits.drop i).headD 0) ((small.drop i).headD 0) carry).1).take (i + 1) =
            digits.take i ++ [(op ((digits.drop i).headD 0) ((small.drop i).headD 0) carry).1] := by
          rw [hseteq]
          have h1 : i + 1 = (digits.take i).length + 1 := by omega
          rw [h1, List.take_append]
          simp
        rw [hdrop, htake, List.tail_drop, List.tail_drop]
        simp only [Option.map_map]
        congr 1
        funext out
        simp
    · rw [if_neg hc, if_neg (fun h => hc (hcond.mp h))]
      simp

/-! ### Arithmetic facts about the limb primitives -/

lemma carrying_add_fst (a b : Nat) (c : Bool) :
    (carrying_add a b c).1 = (a + b + (if c then 1 else 0)) % limbBase := rfl

lemma carrying_add_snd (a b : Nat) (c : Bool) :
    (carrying_add a b c).2 = true ↔ limbBase ≤ a + b + (if c then 1 else 0) := by
  simp [carrying_add]

lemma carrying_add_spec (a b : Nat) (c : Bool) (ha : a < limbBase) (hb : b < limbBase) :
    (carrying_add a b c).1 + limbBase * (if (carrying_add a b c).2 then 1 else 0) =
      a + b + (if c then 1 else 0) ∧ (carrying_add a b c).1 < limbBase := by
  have hB := limbBase_pos
  have hc1 : (if c then 1 else 0) ≤ 1 := by split_ifs <;> omega
  have hx2 : a + b + (if c then 1 else 0) < 2 * limbBase := by omega
  rw [carrying_add_fst]
  constructor
  · by_cases h : limbBase ≤ a + b + (if c then 1 else 0)
    · rw [if_pos ((carrying_add_snd a b c).mpr h)]
      have hdiv : (a + b + (if c then 1 else 0)) / limbBase = 1 := by
        rw [Nat.div_eq_sub_div hB h, Nat.div_eq_of_lt (by omega)]
      have hmod := Nat.mod_add_div (a + b + (if c then 1 else 0)) limbBase
      rw [hdiv] at hmod
      omega
    · rw [if_neg (fun hc2 => h ((carrying_add_snd a b c).mp hc2))]
      rw [Nat.mod_eq_of_lt (by omega)]
      omega
  · exact Nat.mod_lt _ hB

lemma borrowing_sub_self (d : Nat) : borrowing_sub d d false = (0, false) := by
  unfold borrowing_sub
  simp

/-! ### Behavior of the structural loop -/

lemma loopS_step (op : Nat → Nat → Bool → Nat × Bool) (fuel : Nat) (big small : List Nat)
    (carry : Bool) (h : small ≠ [] ∨ carry = true) :
    loopS op (fuel + 1) big small carry =
      (loopS op fuel big.tail small.tail (op (big.headD 0) (small.headD 0) carry).2).map
        (fun out => (op (big.headD 0) (small.headD 0) carry).1 :: out) := by
  simp only [loopS]
  rw [if_pos h]

lemma loopS_done (op : Nat → Nat → Bool → Nat × Bool) (fuel : Nat) :
    loopS op fuel [] [] false = some [] := by
  cases fuel <;> rfl

lemma listVal_headD_tail (l : List Nat) :
    listVal l = l.headD 0 + limbBase * listVal l.tail := by
  cases l <;> simp [listVal]

lemma loopS_carry (fuel : Nat) : ∀ (big small : List Nat) (carry : Bool),
    (∀ d ∈ big, d < limbBase) → (∀ d ∈ small, d < limbBase) →
    big.length + small.length + (if carry then 1 else 0) ≤ fuel →
    ∃ out, loopS carrying_add fuel big small carry = some out ∧
      listVal out = listVal big + listVal small + (if carry then 1 else 0) ∧
      ∀ d ∈ out, d < limbBase := by
  induction fuel with
  | zero =>
    intro big small carry hwb hws hf
    have hb : big = [] := List.length_eq_zero.mp (by omega)
    have hs : small = [] := List.length_eq_zero.mp (by omega)
    have hc : carry = false := by
      cases carry
      · rfl
      · simp at hf
    subst hb; subst hs; subst hc
    exact ⟨[], rfl, by simp [listVal], by simp⟩
  | succ fuel ih =>
    intro big small carry hwb hws hf
    by_cases hc : small ≠ [] ∨ carry = true
    · rw [loopS_step _ _ _ _ _ hc]
      have hb : big.headD 0 < limbBase := by
        cases big with
        | nil => exact limbBase_pos
        | cons x xs => exact hwb x (by simp)
      have hs : small.headD 0 < limbBase := by
        cases small with
        | nil => exact limbBase_pos
        | cons x xs => exact hws x (by simp)
      obtain ⟨hval, hlt⟩ := carrying_add_spec (big.headD 0) (small.headD 0) carry hb hs
      have hwbt : ∀ d ∈ big.tail, d < limbBase := by
        intro d hd
        exact hwb d (List.mem_of_mem_tail hd)
      have hwst : ∀ d ∈ small.tail, d < limbBase := by
        intro d hd
        exact hws d (List.mem_of_mem_tail hd)
      have hbound : big.tail.length + small.tail.length +
          (if (carrying_add (big.headD 0) (small.headD 0) carry).2 then 1 else 0) ≤ fuel := by
        have hcy : (if (carrying_add (big.headD 0) (small.headD 0) carry).2 then 1 else 0) ≤ 1 := by
          split_ifs <;> omega
        cases big with
        | nil =>
          cases small with
          | nil =>
            -- both exhausted: the pending carry is absorbed in one step
            have hcarry : carry = true := by
              rcases hc with h | h
              · simp at h
              · exact h
            subst hcarry
            have : ¬limbBase ≤ (0 : Nat) + 0 + (if true then 1 else 0) := by
              have := limbBase_pos
              unfold limbBase at *
              norm_num
            have h2 : (carrying_add ((List.nil : List Nat).headD 0)
                ((List.nil : List Nat).headD 0) true).2 = false := by
              rw [← Bool.not_eq_true]
              intro hcon
              exact this ((carrying_add_snd 0 0 true).mp hcon)
            rw [h2]
            simp
          | cons s ss =>
            -- incoming carry bounds the outgoing one when the bigger side is exhausted
            have hcy2 : (if (carrying_add ((List.nil : List Nat).headD 0)
                ((s :: ss).headD 0) carry).2 then 1 else 0) ≤ (if carry then 1 else 0) := by
              by_cases h2 : (carrying_add ((List.nil : List Nat).headD 0)
                  ((s :: ss).headD 0) carry).2 = true
              · have h3 := (carrying_add_snd _ _ _).mp h2
                have hs2 : s < limbBase := hws s (by simp)
                simp only [List.headD_nil, List.headD_cons] at h3
                have hcarry : carry = true := by
                  cases carry
                  · simp at h3
                    omega
                  · rfl
                rw [h2, hcarry]
              · rw [Bool.not_eq_true] at h2
                rw [h2]
                simp
            simp only [List.length_nil, List.length_cons, List.tail_nil, List.tail_cons] at *
            omega
        | cons x xs =>
          cases small with
          | nil =>
            have hcarry : carry = true := by
              rcases hc with h | h
              · simp at h
              · exact h
            have he : (if carry = true then 1 else 0) = 1 := by rw [hcarry]; rfl
            rw [he] at hf
            simp only [List.length_nil, List.length_cons, List.tail_nil, List.tail_cons] at *
            omega
          | cons s ss =>
            simp only [List.length_cons, List.tail_cons] at *
            omega
      obtain ⟨out, hout, hval2, hwout⟩ := ih big.tail small.tail
        (carrying_add (big.headD 0) (small.headD 0) carry).2 hwbt hwst hbound
      refine ⟨(carrying_add (big.headD 0) (small.headD 0) carry).1 :: out, ?_, ?_, ?_⟩
      · rw [hout]
        rfl
      · rw [listVal_headD_tail big, listVal_headD_tail small]
        show (carrying_add (big.headD 0) (small.headD 0) carry).1 + limbBase * listVal out = _
        rw [hval2]
        have hexp : limbBase * (listVal big.tail + listVal small.tail +
            (if (carrying_add (big.headD 0) (small.headD 0) carry).2 then 1 else 0)) =
            limbBase * listVal big.tail + limbBase * listVal small.tail +
            limbBase * (if (carrying_add (big.headD 0) (small.headD 0) carry).2
              then 1 else 0) := by ring
        rw [hexp]
        omega
      · intro d hd
        rcases List.mem_cons.mp hd with h | h
        · rw [h]
          exact hlt
        · exact hwout d h
    · push_neg at hc
      obtain ⟨hs, hcar⟩ := hc
      have hcar' : carry = false := by
        cases carry
        · rfl
        · exact absurd rfl hcar
      subst hcar'
      cases fuel with
      | zero =>
        refine ⟨big, ?_, by simp [hs, listVal], hwb⟩
        simp only [loopS]
        rw [if_neg (by simp [hs])]
      | succ n =>
        refine ⟨big, ?_, by simp [hs, listVal], hwb⟩
        simp only [loopS]
        rw [if_neg (by simp [hs])]

lemma loopS_borrow_stuck (fuel : Nat) : loopS borrowing_sub fuel [] [] true = none := by
  induction fuel with
  | zero => rfl
  | succ n ih =>
    rw [loopS_step _ _ _ _ _ (Or.inr rfl)]
    have h2 : (borrowing_sub (([] : List Nat).headD 0) (([] : List Nat).headD 0) true).2 =
        true := rfl
    rw [h2]
    simp only [List.tail_nil]
    rw [ih]
    rfl

lemma loopS_borrow_self (fuel : Nat) : ∀ l : List Nat, l.length ≤ fuel →
    loopS borrowing_sub fuel l l false = some (l.map (fun _ => 0)) := by
  induction fuel with
  | zero =>
    intro l hl
    have h : l = [] := List.length_eq_zero.mp (by omega)
    subst h
    rfl
  | succ n ih =>
    intro l hl
    cases l with
    | nil => simp [loopS]
    | cons d ds =>
      rw [loopS_step _ _ _ _ _ (Or.inl (by simp))]
      simp only [List.headD_cons, List.tail_cons, borrowing_sub_self]
      rw [ih ds (by simp at hl; omega)]
      rfl

lemma loopS_borrow_self_out (fuel : Nat) : ∀ (l out : List Nat),
    loopS borrowing_sub fuel l l false = some out → out = l.map (fun _ => 0) := by
  induction fuel with
  | zero =>
    intro l out h
    cases l with
    | nil =>
      simp [loopS] at h
      exact h
    | cons d ds => simp [loopS] at h
  | succ n ih =>
    intro l out h
    cases l with
    | nil =>
      simp [loopS] at h
      exact h
    | cons d ds =>
      rw [loopS_step _ _ _ _ _ (Or.inl (by simp))] at h
      simp only [List.headD_cons, List.tail_cons, borrowing_sub_self] at h
      rw [Option.map_eq_some'] at h
      obtain ⟨out', hout', hout2⟩ := h
      rw [← hout2, ih ds out' hout']
      rfl

lemma normalize_zeros (p : Bool) (l : List Nat) (h : ∀ d ∈ l, d = 0) :
    Number.normalize ⟨p, l⟩ = ⟨true, [0]⟩ := by
  have hstrip : stripLZ l = [] := by
    unfold stripLZ
    have h2 : l.reverse.dropWhile (fun d => d == 0) = [] :=
      List.dropWhile_eq_nil_iff.mpr (fun x hx => by simp [h x (List.mem_reverse.mp hx)])
    rw [h2]
    rfl
  rw [normalize_eq_strip, if_pos hstrip]

lemma cmpList_refl (x : List Nat) : cmpList x x = .eq := (cmpList_eq_iff x x).mpr rfl

lemma neg_of_Inv (a : Number) (h : a.Inv) (h0 : a.digits ≠ [0]) :
    a.neg = ⟨!a.positive, a.digits⟩ := by
  obtain ⟨hne, hlast, hzero⟩ := h
  unfold Number.neg
  exact normalize_of_Inv ⟨!a.positive, a.digits⟩
    ⟨hne, fun hl => absurd (hlast hl) h0, fun hl => absurd hl h0⟩

lemma add_unfold (a b : Number) (fuel : Nat) :
    Number.add a b fuel =
      (if a.cmp_abs b = .gt then
        (addLoop (match a.positive, b.positive with
          | true, true => carrying_add
          | false, false => carrying_add
          | _, _ => borrowing_sub) b.digits fuel a.digits false 0).map
          (fun digits => Number.normalize ⟨a.positive, digits⟩)
      else
        (addLoop (match b.positive, a.positive with
          | true, true => carrying_add
          | false, false => carrying_add
          | _, _ => borrowing_sub) a.digits fuel b.digits false 0).map
          (fun digits => Number.normalize ⟨b.positive, digits⟩)) := by
  by_cases h : a.cmp_abs b = .gt
  · simp only [Number.add, if_pos h]
  · simp only [Number.add, if_neg h]

/-! ### Divergence of the borrow chain when the magnitudes are picked wrongly -/

lemma loopS_borrow_5_diverges (fuel : Nat) :
    loopS borrowing_sub fuel [5] [0, 1] false = none := by
  match fuel with
  | 0 => rfl
  | 1 => decide
  | (n + 2) =>
    rw [loopS_step _ _ _ _ _ (Or.inl (by simp))]
    simp only [List.headD_cons, List.tail_cons]
    rw [show borrowing_sub 5 0 false = (5, false) from by decide]
    rw [loopS_step _ _ _ _ _ (Or.inl (by simp))]
    simp only [List.headD_nil, List.headD_cons, List.tail_nil, List.tail_cons]
    have h2 : (borrowing_sub 0 1 ((5 : Nat), false).2).2 = true := rfl
    rw [h2, loopS_borrow_stuck]
    rfl

lemma loopS_borrow_2_diverges (fuel : Nat) :
    loopS borrowing_sub fuel [2] [1, 1] false = none := by
  match fuel with
  | 0 => rfl
  | 1 => decide
  | (n + 2) =>
    rw [loopS_step _ _ _ _ _ (Or.inl (by simp))]
    simp only [List.headD_cons, List.tail_cons]
    rw [show borrowing_sub 2 1 false = (1, false) from by decide]
    rw [loopS_step _ _ _ _ _ (Or.inl (by simp))]
    simp only [List.headD_nil, List.headD_cons, List.tail_nil, List.tail_cons]
    have h2 : (borrowing_sub 0 1 ((1 : Nat), false).2).2 = true := rfl
    rw [h2, loopS_borrow_stuck]
    rfl

/-! ### Claim theorems -/

/-- C1: the claim that `Add(a, b)` returns a normalized Value denoting the
mathematical sum for every pair of normalized Values is violated by the code:
on the normalized inputs `+5` and `-2^64` the magnitude comparison ranks `+5`
greater (it compares digit sequences lexicographically most-significant-first
without regard to length), so the borrow loop subtracts the larger magnitude
from the smaller and the resulting borrow chain never clears: for every fuel
the loop still has work pending, i.e. the source loop diverges and no sum is
ever returned. -/
theorem C1_add_wrong_pick_diverges :
    Number.Normalized ⟨true, [5]⟩ ∧ Number.Normalized ⟨false, [0, 1]⟩ ∧
      ∀ fuel : Nat, Number.add ⟨true, [5]⟩ ⟨false, [0, 1]⟩ fuel = none := by
  refine ⟨by decide, by decide, fun fuel => ?_⟩
  have h1 : Number.add ⟨true, [5]⟩ ⟨false, [0, 1]⟩ fuel =
      (addLoop borrowing_sub [0, 1] fuel [5] false 0).map
        (fun digits => Number.normalize ⟨true, digits⟩) := by
    rw [add_unfold, if_pos (by decide)]
  rw [h1, addLoop_eq_loopS borrowing_sub fuel [5] [0, 1] false 0 (by simp)]
  simp only [List.drop_zero, List.take_zero, List.nil_append]
  rw [loopS_borrow_5_diverges fuel]
  rfl

/-- C2: the claim that the per-limb carry/borrow loop of `Add` always
terminates is violated: on the normalized inputs `+2` and `-(2^64 + 1)` the
magnitude comparison picks `+2` as the bigger operand, the borrow chain
reaches the state (no limbs left, borrow pending) from which every further
step pushes a `0` limb, subtracts the borrow and re-emits a borrow, so for
every fuel the loop still has work pending and the operation never produces a
Value. -/
theorem C2_add_loop_nontermination :
    Number.Normalized ⟨true, [2]⟩ ∧ Number.Normalized ⟨false, [1, 1]⟩ ∧
      ∀ fuel : Nat, Number.add ⟨true, [2]⟩ ⟨false, [1, 1]⟩ fuel = none := by
  refine ⟨by decide, by decide, fun fuel => ?_⟩
  have h1 : Number.add ⟨true, [2]⟩ ⟨false, [1, 1]⟩ fuel =
      (addLoop borrowing_sub [1, 1] fuel [2] false 0).map
        (fun digits => Number.normalize ⟨true, digits⟩) := by
    rw [add_unfold, if_pos (by decide)]
  rw [h1, addLoop_eq_loopS borrowing_sub fuel [2] [1, 1] false 0 (by simp)]
  simp only [List.drop_zero, List.take_zero, List.nil_append]
  rw [loopS_borrow_2_diverges fuel]
  rfl

/-- C3: the claim that `cmp_abs` orders digit sequences by the denoted
absolute value also when the lengths differ is violated: on the normalized
digit sequences `[5]` (value 5) and `[0, 1]` (value 2^64) the helper returns
`Greater` although 5 < 2^64, because Rust's `Iterator::cmp` compares the
reversed sequences lexicographically and `5 > 1` decides the comparison
before the length difference is ever noticed. -/
theorem C3_cmp_abs_not_magnitude_order :
    Number.Normalized ⟨true, [5]⟩ ∧ Number.Normalized ⟨true, [0, 1]⟩ ∧
      Number.cmp_abs ⟨true, [5]⟩ ⟨true, [0, 1]⟩ = .gt ∧
      listVal [5] < listVal [0, 1] := by
  refine ⟨by decide, by decide, by decide, by decide⟩

/-- C4: for normalized Values, `cmp` implements a strict total order that is
consistent with the denoted integers: it returns `lt` / `eq` / `gt` exactly
when the denoted integer of the first operand is less than / equal to /
greater than that of the second; `eq` moreover forces the two Values to be
identical (antisymmetry / uniqueness of representation), and the induced
strict order is transitive.  Exactly-one-of-three follows from the
trichotomy of the integer order through the three equivalences. -/
theorem C4_cmp_strict_total_order (a b c : Number) (ha : a.Normalized)
    (hb : b.Normalized) (hc : c.Normalized) :
    (a.cmp b = .lt ↔ a.toInt < b.toInt) ∧
    (a.cmp b = .eq ↔ a.toInt = b.toInt) ∧
    (a.cmp b = .gt ↔ b.toInt < a.toInt) ∧
    (a.cmp b = .eq → a = b) ∧
    (a.cmp b = .lt → b.cmp c = .lt → a.cmp c = .lt) := by
  have hab := cmp_eq_intCmp a b ha hb
  have hbc := cmp_eq_intCmp b c hb hc
  have hac := cmp_eq_intCmp a c ha hc
  refine ⟨?_, ?_, ?_, cmp_eq_of_eq a b, ?_⟩
  · rw [hab]
    exact intCmp_lt_iff _ _
  · rw [hab]
    exact intCmp_eq_iff _ _
  · rw [hab]
    exact intCmp_gt_iff _ _
  · intro h1 h2
    rw [hab, intCmp_lt_iff] at h1
    rw [hbc, intCmp_lt_iff] at h2
    rw [hac, intCmp_lt_iff]
    omega

theorem C4_witness : (⟨true, [1]⟩ : Number).cmp ⟨true, [2]⟩ = .lt :=
  (C4_cmp_strict_total_order ⟨true, [1]⟩ ⟨true, [2]⟩ ⟨true, [3]⟩ (by decide) (by decide)
    (by decide)).1.mpr (by decide)

/-- C5: every Value produced by the public constructors and operations
(`new`, `add`, `sub`, `neg`) satisfies the representation invariants: digits
non-empty, no most-significant zero limb except the single-limb zero, and
numeric zero carries `positive = true`.  For `add`/`sub` this covers every
Value the (possibly diverging) loop ever returns. -/
theorem C5_results_satisfy_invariants :
    (∀ (p : Bool) (l : List Nat), (Number.new p l).Inv) ∧
    (∀ (a b : Number) (fuel : Nat) (c : Number), Number.add a b fuel = some c → c.Inv) ∧
    (∀ (a b : Number) (fuel : Nat) (c : Number), Number.sub a b fuel = some c → c.Inv) ∧
    (∀ a : Number, a.neg.Inv) := by
  have hadd : ∀ (a b : Number) (fuel : Nat) (c : Number),
      Number.add a b fuel = some c → c.Inv := by
    intro a b fuel c h
    rw [add_unfold] at h
    by_cases hcmp : a.cmp_abs b = .gt
    · rw [if_pos hcmp, Option.map_eq_some'] at h
      obtain ⟨out, _, hc⟩ := h
      rw [← hc]
      exact normalize_Inv _ _
    · rw [if_neg hcmp, Option.map_eq_some'] at h
      obtain ⟨out, _, hc⟩ := h
      rw [← hc]
      exact normalize_Inv _ _
  refine ⟨fun p l => normalize_Inv p l, hadd, ?_, fun a => normalize_Inv (!a.positive) a.digits⟩
  intro a b fuel c h
  exact hadd a b.neg fuel c h

theorem C5_witness :
    (Number.new true [7, 0]).Inv ∧ (⟨true, [12]⟩ : Number).Inv ∧
      (⟨true, [8]⟩ : Number).Inv ∧ (Number.neg ⟨false, [3]⟩).Inv :=
  ⟨C5_results_satisfy_invariants.1 true [7, 0],
   C5_results_satisfy_invariants.2.1 ⟨true, [5]⟩ ⟨true, [7]⟩ 3 ⟨true, [12]⟩ (by decide),
   C5_results_satisfy_invariants.2.2.1 ⟨true, [13]⟩ ⟨true, [5]⟩ 3 ⟨true, [8]⟩ (by decide),
   C5_results_satisfy_invariants.2.2.2 ⟨false, [3]⟩⟩

/-- C6: normalization is idempotent: a Value satisfying the representation
invariants is returned unchanged by the normalizer (same sign flag, same
digit sequence), and consequently running the normalizer twice equals running
it once on any input. -/
theorem C6_normalize_idempotent :
    (∀ a : Number, a.Inv → a.normalize = a) ∧
    (∀ a : Number, a.normalize.normalize = a.normalize) := by
  refine ⟨fun a h => normalize_of_Inv a h, fun a => ?_⟩
  exact normalize_of_Inv a.normalize (normalize_Inv' a)

theorem C6_witness : (⟨false, [7, 5]⟩ : Number).normalize = ⟨false, [7, 5]⟩ :=
  C6_normalize_idempotent.1 ⟨false, [7, 5]⟩ (by decide)

/-- C9: negation is an involution on Values satisfying the representation
invariants: negating twice returns the original Value, including the zero
case where both applications yield the canonical non-negative zero. -/
theorem C9_neg_involution (a : Number) (h : a.Inv) : a.neg.neg = a := by
  obtain ⟨p, l⟩ := a
  obtain ⟨hne, hlast, hzero⟩ := h
  have hne' : l ≠ [] := hne
  have hlast' : l.getLast? = some 0 → l = [0] := hlast
  have hzero' : l = [0] → p = true := hzero
  by_cases h0 : l = [0]
  · subst h0
    have hp : p = true := hzero' rfl
    subst hp
    decide
  · have h1 : Number.neg ⟨p, l⟩ = ⟨!p, l⟩ :=
      neg_of_Inv ⟨p, l⟩ ⟨hne', hlast', hzero'⟩ h0
    rw [h1]
    have h2 : Number.neg ⟨!p, l⟩ = ⟨!!p, l⟩ :=
      neg_of_Inv ⟨!p, l⟩ ⟨hne', fun hl => absurd (hlast' hl) h0, fun hl => absurd hl h0⟩ h0
    rw [h2]
    simp

theorem C9_witness : (Number.neg (Number.neg ⟨false, [7]⟩)) = ⟨false, [7]⟩ :=
  C9_neg_involution ⟨false, [7]⟩ (by decide)

/-- C7: adding a Value satisfying the representation invariants to its
negation yields the canonical zero `Construct(true, [0])`, provided the loop
is given at least as much fuel as the operand has limbs (the loop runs
exactly one iteration per limb here: equal limbs subtract to zero with no
borrow). -/
theorem C7_add_neg_eq_zero (a : Number) (fuel : Nat) (ha : a.Inv)
    (hf : a.digits.length ≤ fuel) :
    Number.add a a.neg fuel = some (Number.new true [0]) := by
  obtain ⟨hne, hlast, hzero⟩ := ha
  by_cases h0 : a.digits = [0]
  · have hp : a.positive = true := hzero h0
    have ha2 : a = ⟨true, [0]⟩ := by
      rcases a with ⟨p, l⟩
      have hp' : p = true := hp
      have h0' : l = [0] := h0
      rw [hp', h0']
    rw [ha2] at hf ⊢
    have hneg : Number.neg ⟨true, [0]⟩ = ⟨true, [0]⟩ := by decide
    rw [hneg, add_unfold, if_neg (by decide)]
    have hfuel1 : 1 ≤ fuel := by simpa using hf
    rw [addLoop_eq_loopS _ fuel [0] [0] false 0 (by simp)]
    simp only [List.drop_zero, List.take_zero, List.nil_append]
    cases fuel with
    | zero => omega
    | succ n =>
      rw [loopS_step _ _ _ _ _ (Or.inl (by simp))]
      simp only [List.headD_cons, List.tail_cons]
      rw [show carrying_add 0 0 false = (0, false) from by decide]
      rw [loopS_done]
      rfl
  · have hneg : a.neg = ⟨!a.positive, a.digits⟩ :=
      neg_of_Inv a ⟨hne, hlast, hzero⟩ h0
    rw [hneg, add_unfold]
    have hcmp : Number.cmp_abs a ⟨!a.positive, a.digits⟩ = .eq := cmpList_refl _
    rw [if_neg (by rw [hcmp]; simp)]
    have hop : (match (⟨!a.positive, a.digits⟩ : Number).positive, a.positive with
        | true, true => carrying_add
        | false, false => carrying_add
        | _, _ => borrowing_sub) = borrowing_sub := by
      cases hp : a.positive <;> simp
    rw [hop]
    rw [addLoop_eq_loopS borrowing_sub fuel a.digits a.digits false 0 (by simp)]
    simp only [List.drop_zero, List.take_zero, List.nil_append]
    rw [loopS_borrow_self fuel a.digits hf]
    have hz : Number.normalize ⟨(⟨!a.positive, a.digits⟩ : Number).positive,
        a.digits.map (fun _ => 0)⟩ = ⟨true, [0]⟩ := by
      apply normalize_zeros
      intro d hd
      obtain ⟨x, _, hx⟩ := List.mem_map.mp hd
      exact hx.symm
    show some (Number.normalize ⟨(⟨!a.positive, a.digits⟩ : Number).positive,
        a.digits.map (fun _ => 0)⟩) = some (Number.new true [0])
    rw [hz]
    rfl

theorem C7_witness : Number.add ⟨true, [5]⟩ (Number.neg ⟨true, [5]⟩) 1 =
    some (Number.new true [0]) :=
  C7_add_neg_eq_zero ⟨true, [5]⟩ 1 (by decide) (by decide)

/-- C8: addition is commutative for every pair of Values and every fuel
budget: when the magnitude comparison is strict both calls select the same
(bigger, smaller) pair; on a tie the digit sequences coincide, the per-limb
operation selected from the sign pair is the same, and with opposite signs
the borrow loop cancels every limb so both results normalize to the
canonical zero. -/
theorem C8_add_commutative (a b : Number) (fuel : Nat) :
    Number.add a b fuel = Number.add b a fuel := by
  rw [add_unfold, add_unfold]
  cases hc : a.cmp_abs b with
  | gt =>
    have hc2 : b.cmp_abs a = .lt := by
      unfold Number.cmp_abs at hc ⊢
      rw [← cmpList_swap, hc]
      rfl
    rw [if_pos rfl, if_neg (by simp [hc2])]
  | lt =>
    have hc2 : b.cmp_abs a = .gt := by
      unfold Number.cmp_abs at hc ⊢
      rw [← cmpList_swap, hc]
      rfl
    rw [if_neg (by simp), if_pos hc2]
  | eq =>
    have hdig : a.digits = b.digits := by
      unfold Number.cmp_abs at hc
      exact List.reverse_inj.mp ((cmpList_eq_iff _ _).mp hc)
    have hc2 : b.cmp_abs a = .eq := by
      unfold Number.cmp_abs at hc ⊢
      rw [← cmpList_swap, hc]
      rfl
    rw [if_neg (by simp), if_neg (by simp [hc2])]
    by_cases hpp : a.positive = b.positive
    · rw [hdig, hpp]
    · have hop1 : (match b.positive, a.positive with
          | true, true => carrying_add
          | false, false => carrying_add
          | _, _ => borrowing_sub) = borrowing_sub := by
        cases hpa : a.positive <;> cases hpb : b.positive <;> simp_all
      have hop2 : (match a.positive, b.positive with
          | true, true => carrying_add
          | false, false => carrying_add
          | _, _ => borrowing_sub) = borrowing_sub := by
        cases hpa : a.positive <;> cases hpb : b.positive <;> simp_all
      rw [hop1, hop2, hdig]
      rw [addLoop_eq_loopS borrowing_sub fuel b.digits b.digits false 0 (by simp)]
      simp only [List.drop_zero, List.take_zero, List.nil_append]
      cases hres : loopS borrowing_sub fuel b.digits b.digits false with
      | none => rfl
      | some out =>
        have hzout : out = b.digits.map (fun _ => 0) :=
          loopS_borrow_self_out fuel b.digits out hres
        have hzeros : ∀ d ∈ out, d = 0 := by
          intro d hd
          rw [hzout] at hd
          obtain ⟨x, _, hx⟩ := List.mem_map.mp hd
          exact hx.symm
        simp only [Option.map_some']
        rw [normalize_zeros b.positive out hzeros, normalize_zeros a.positive out hzeros]

lemma toInt_add_same_sign (p : Bool) (la lb out : List Nat)
    (hval : listVal out = listVal la + listVal lb) :
    Number.toInt ⟨p, out⟩ = Number.toInt ⟨p, la⟩ + Number.toInt ⟨p, lb⟩ := by
  unfold Number.toInt
  cases p
  · simp only [Bool.false_eq_true, if_false]
    rw [hval]
    push_cast
    ring
  · simp only [if_true]
    rw [hval]
    push_cast
    ring

/-- C10: for same-signed normalized operands the adder always terminates
(with fuel at least the total limb count) and returns the normalized Value
denoting the mathematical sum, regardless of which operand the magnitude
comparison designates as bigger, because the per-limb carrying addition is
symmetric in its two limb arguments. -/
theorem C10_add_same_sign_correct (a b : Number) (fuel : Nat) (ha : a.Normalized)
    (hb : b.Normalized) (hsign : a.positive = b.positive)
    (hf : a.digits.length + b.digits.length ≤ fuel) :
    ∃ c, Number.add a b fuel = some c ∧ c.Normalized ∧
      c.toInt = a.toInt + b.toInt := by
  obtain ⟨hai, haw⟩ := ha
  obtain ⟨hbi, hbw⟩ := hb
  have haw' : ∀ d ∈ a.digits, d < limbBase := haw
  have hbw' : ∀ d ∈ b.digits, d < limbBase := hbw
  have ha2 : Number.toInt a = Number.toInt ⟨a.positive, a.digits⟩ := rfl
  have hb2 : Number.toInt b = Number.toInt ⟨a.positive, b.digits⟩ := by rw [hsign]
  rw [add_unfold]
  by_cases hcmp : a.cmp_abs b = .gt
  · rw [if_pos hcmp]
    have hop : (match a.positive, b.positive with
        | true, true => carrying_add
        | false, false => carrying_add
        | _, _ => borrowing_sub) = carrying_add := by
      cases hpa : a.positive <;> cases hpb : b.positive <;> simp_all
    rw [hop, addLoop_eq_loopS carrying_add fuel a.digits b.digits false 0 (by simp)]
    simp only [List.drop_zero, List.take_zero, List.nil_append]
    obtain ⟨out, hout, hval, hwout⟩ :=
      loopS_carry fuel a.digits b.digits false haw' hbw' (by simpa using hf)
    rw [hout]
    simp only [Option.map_some']
    refine ⟨Number.normalize ⟨a.positive, out⟩, rfl,
      ⟨normalize_Inv _ _, normalize_Wf _ _ hwout⟩, ?_⟩
    rw [toInt_normalize, ha2, hb2]
    exact toInt_add_same_sign a.positive a.digits b.digits out (by simpa using hval)
  · rw [if_neg hcmp]
    have hop : (match b.positive, a.positive with
        | true, true => carrying_add
        | false, false => carrying_add
        | _, _ => borrowing_sub) = carrying_add := by
      cases hpa : a.positive <;> cases hpb : b.positive <;> simp_all
    rw [hop, addLoop_eq_loopS carrying_add fuel b.digits a.digits false 0 (by simp)]
    simp only [List.drop_zero, List.take_zero, List.nil_append]
    obtain ⟨out, hout, hval, hwout⟩ :=
      loopS_carry fuel b.digits a.digits false hbw' haw' (by simp; omega)
    rw [hout]
    simp only [Option.map_some']
    refine ⟨Number.normalize ⟨b.positive, out⟩, rfl,
      ⟨normalize_Inv _ _, normalize_Wf _ _ hwout⟩, ?_⟩
    rw [toInt_normalize, ha2, hb2, ← hsign]
    have hval2 : listVal out = listVal a.digits + listVal b.digits := by
      simp at hval
      omega
    exact toInt_add_same_sign a.positive a.digits b.digits out hval2

theorem C10_witness : ∃ c, Number.add ⟨true, [5]⟩ ⟨true, [7]⟩ 2 = some c ∧
    c.Normalized ∧ c.toInt = (⟨true, [5]⟩ : Number).toInt + (⟨true, [7]⟩ : Number).toInt :=
  C10_add_same_sign_correct ⟨true, [5]⟩ ⟨true, [7]⟩ 2 (by decide) (by decide) rfl
    (by decide)
